import Mathlib

/-!
Shallow embedding of the fixed-size-block memory pool
(`src/code/base/MemoryPool.{h,tcc}` and the teaching variant
`src/background/MemoryPool/C-11-Teach/MemoryPool.{h,tcc}`).

Addresses are natural numbers and `0` plays the role of the null pointer.
A pool configuration records the compile-time template parameters and
platform constants (`BlockSize`, `sizeof(Slot)`, `alignof(Slot)`,
`sizeof(Slot*)`) together with the system allocator `::operator new`,
modelled as the function giving the base address of the n-th acquired
block.  The block chain (`currentBlock` plus the link word written into
each block's first word) is modelled as the list of block base
addresses, head first; the intrusive free list (`freeSlots` plus the
link stored inside each free slot) is modelled as the list of free slot
addresses, head first.
-/

/-- Number of padding bytes needed to align address `p` to `align`;
embeds `MemoryPool::calculatePadding` (MemoryPool.tcc, both variants):
`offset = addr % align; return offset == 0 ? 0 : align - offset`. -/
def calculatePadding (p align : Nat) : Nat :=
  let offset := p % align
  if offset = 0 then 0 else align - offset

/-- Compile-time parameters of one instantiation `MemoryPool<T, BlockSize>`
together with the platform constants and the system allocator, the latter
modelled as the map from acquisition index to the new block's base address. -/
structure Config where
  blockSize : Nat
  slotSize : Nat
  align : Nat
  ptrSize : Nat
  alloc : Nat → Nat

/-- Facts the C++ platform guarantees for an accepted instantiation: sizes
and alignments are positive, `sizeof(Slot)` is a multiple of `alignof(Slot)`
and at least `sizeof(Slot*)` (the union `Slot` holds a pointer member), the
`static_assert (BlockSize >= 2 * sizeof(slot_type))` bound holds, and
`::operator new` returns nonnull, suitably aligned, pairwise disjoint block
regions. -/
structure Config.WF (cfg : Config) : Prop where
  slot_pos : 0 < cfg.slotSize
  align_pos : 0 < cfg.align
  ptr_pos : 0 < cfg.ptrSize
  align_dvd_slot : cfg.align ∣ cfg.slotSize
  ptr_le_slot : cfg.ptrSize ≤ cfg.slotSize
  block_ge : 2 * cfg.slotSize ≤ cfg.blockSize
  alloc_pos : ∀ n, 0 < cfg.alloc n
  alloc_aligned : ∀ n, cfg.align ∣ cfg.alloc n
  alloc_disjoint : ∀ m n, m ≠ n →
    cfg.alloc m + cfg.blockSize ≤ cfg.alloc n ∨
    cfg.alloc n + cfg.blockSize ≤ cfg.alloc m

/-- The four data members of `MemoryPool`: the two cursors, the free list
and the block chain (the chain stands for `currentBlock` together with the
link words stored in the blocks; the free list stands for `freeSlots`
together with the links stored in the free slots). -/
structure PoolState where
  currentSlot : Nat
  lastSlot : Nat
  freeSlots : List Nat
  blocks : List Nat
  deriving DecidableEq

/-- Head of the block chain, i.e. the `currentBlock` pointer; `0` (null)
when no block has been acquired. -/
def PoolState.currentBlock (s : PoolState) : Nat := s.blocks.headD 0

/-- State established by the default constructor: all four pointers null. -/
def emptyPool : PoolState := ⟨0, 0, [], []⟩

/-- First usable slot address in a block based at `b`: the data region
starts just past the link word (`body = newBlock + sizeof(slot_pointer)`)
and is then aligned with `calculatePadding`. -/
def blockStart (cfg : Config) (b : Nat) : Nat :=
  b + cfg.ptrSize + calculatePadding (b + cfg.ptrSize) cfg.align

/-- Embeds `MemoryPool::allocateNewBlock` (MemoryPool.tcc, both variants):
acquire a block, link it in front of the chain, set `currentSlot` to the
first aligned address past the link word and `lastSlot` to
`newBlock + BlockSize - sizeof(slot_type) + 1`. -/
def allocateNewBlock (cfg : Config) (s : PoolState) : PoolState :=
  let newBlock := cfg.alloc s.blocks.length
  { currentSlot := blockStart cfg newBlock
    lastSlot := newBlock + cfg.blockSize - cfg.slotSize + 1
    freeSlots := s.freeSlots
    blocks := newBlock :: s.blocks }

/-- Embeds `MemoryPool::allocate` (src/code/base/MemoryPool.tcc, lines
78-89): pop the free list if non-empty; otherwise acquire a new block when
`currentSlot >= lastSlot`, and return `currentSlot++` (advance by one slot
width). -/
def allocate (cfg : Config) (s : PoolState) : Nat × PoolState :=
  match s.freeSlots with
  | pos :: rest => (pos, { s with freeSlots := rest })
  | [] =>
      let t := if s.lastSlot ≤ s.currentSlot then allocateNewBlock cfg s else s
      (t.currentSlot, { t with currentSlot := t.currentSlot + cfg.slotSize })

/-- Embeds `MemoryPool::deallocate` (src/code/base/MemoryPool.tcc, lines
91-98): if `p` is not null, push it on the head of the free list. -/
def deallocate (s : PoolState) (p : Nat) : PoolState :=
  if p ≠ 0 then { s with freeSlots := p :: s.freeSlots } else s

/-- Restatement of the allocation priority in the words of the
specification, for the refinement claim C1: if the Free List is non-empty,
pop and return its head; else if the current-slot cursor has reached the
last-slot cursor, acquire a new block first; in either cursor case return
the current-slot cursor and advance it by one slot width. -/
def allocateSpec (cfg : Config) (s : PoolState) : Nat × PoolState :=
  match s.freeSlots with
  | top :: rest => (top, { s with freeSlots := rest })
  | [] =>
      let t := if s.currentSlot ≥ s.lastSlot then allocateNewBlock cfg s else s
      (t.currentSlot, { t with currentSlot := t.currentSlot + cfg.slotSize })

/-- Observable side effects of the convenience operations: running the
element's destructor at an address, and calling `deallocate` on an
address. -/
inductive PoolAction where
  | destroyAct : Nat → PoolAction
  | deallocAct : Nat → PoolAction
  deriving DecidableEq

/-- Pool state paired with the chronological log of observable actions. -/
structure Trace where
  pool : PoolState
  log : List PoolAction
  deriving DecidableEq

/-- Explicit destructor call `p->~value_type()`: no pool bookkeeping, only
the destruction side effect. -/
def destroyOp (t : Trace) (p : Nat) : Trace :=
  { pool := t.pool, log := t.log ++ [PoolAction.destroyAct p] }

/-- Call of `deallocate(p)` with its side-effect log entry. -/
def deallocateOp (t : Trace) (p : Nat) : Trace :=
  { pool := deallocate t.pool p, log := t.log ++ [PoolAction.deallocAct p] }

/-- Embeds `MemoryPool::deleteElement` (src/code/base/MemoryPool.tcc,
lines 120-126): if `p` is not null, run the destructor and then call
`deallocate(p)`, in that order; otherwise do nothing. -/
def deleteElementOp (t : Trace) (p : Nat) : Trace :=
  if p ≠ 0 then deallocateOp (destroyOp t p) p else t

/-- Embeds the move constructor `MemoryPool(MemoryPool&&)`
(src/code/base/MemoryPool.tcc, lines 17-27): the destination takes all four
members, the source is reset to all-null.  Returns (destination, source
after the move). -/
def moveCtor (other : PoolState) : PoolState × PoolState :=
  ({ currentSlot := other.currentSlot
     lastSlot := other.lastSlot
     freeSlots := other.freeSlots
     blocks := other.blocks },
   { currentSlot := 0, lastSlot := 0, freeSlots := [], blocks := [] })

/-- Embeds move assignment `operator=(MemoryPool&&)`
(src/code/base/MemoryPool.tcc, lines 43-59) on distinct objects: the
destination first runs its own destructor, releasing every block it owns
(the returned list, in chain order), then takes the source's four members,
and the source is reset to all-null.  Returns (released blocks,
(destination, source after the move)). -/
def moveAssign (dest src : PoolState) : List Nat × (PoolState × PoolState) :=
  (dest.blocks,
   ({ currentSlot := src.currentSlot
      lastSlot := src.lastSlot
      freeSlots := src.freeSlots
      blocks := src.blocks },
    { currentSlot := 0, lastSlot := 0, freeSlots := [], blocks := [] }))

/-- Embeds the same-type copy constructor of the teaching variant
(C-11-Teach/MemoryPool.tcc, lines 26-31): it delegates to the default
constructor and copies nothing from `other`. -/
def copyCtorSame (other : PoolState) : PoolState :=
  let _ := other
  emptyPool

/-- Embeds the cross-type copy constructor `MemoryPool(const MemoryPool<U>&)`
of the teaching variant (C-11-Teach/MemoryPool.tcc, lines 48-53): it also
delegates to the default constructor and copies nothing. -/
def copyCtorCross (other : PoolState) : PoolState :=
  let _ := other
  emptyPool

/-- Embeds the capped counting loops of the teaching variant's diagnostics
(`while (curr != nullptr && count < 1000) { count++; curr = curr->next; }`). -/
def countCapped : Nat → List Nat → Nat
  | count, [] => count
  | count, _ :: rest => if count < 1000 then countCapped (count + 1) rest else count

/-- Embeds `MemoryPool::available` (C-11-Teach/MemoryPool.tcc, lines
196-215).  `count += lastSlot - currentSlot` is a `Slot*` pointer
difference, i.e. the byte distance divided by `sizeof(Slot)` with
truncation; then the free list is counted by the capped loop starting from
that count. -/
def available (cfg : Config) (s : PoolState) : Nat :=
  let count := if s.currentSlot < s.lastSlot
    then (s.lastSlot - s.currentSlot) / cfg.slotSize else 0
  countCapped count s.freeSlots

/-- Embeds `MemoryPool::used` (C-11-Teach/MemoryPool.tcc, lines 217-259):
`slotsPerBlock = (BlockSize - sizeof(slot_pointer)) / sizeof(slot_type)`,
blocks and free slots counted by the capped loops, pointer-difference count
of the current block's tail, and `totalSlots - totalAvailable`. -/
def used (cfg : Config) (s : PoolState) : Nat :=
  let slotsPerBlock := (cfg.blockSize - cfg.ptrSize) / cfg.slotSize
  let blockCount := countCapped 0 s.blocks
  if blockCount = 0 then 0
  else
    let totalSlots := blockCount * slotsPerBlock
    let availableInCurrentBlock := if s.currentSlot < s.lastSlot
      then (s.lastSlot - s.currentSlot) / cfg.slotSize else 0
    let freeSlotsCount := countCapped 0 s.freeSlots
    totalSlots - (availableInCurrentBlock + freeSlotsCount)

/-- Number of Unused slots remaining between the current-slot and the
last-slot cursors, in the words of claim C5: the count of slot positions
`currentSlot + k * slotSize` lying strictly below `lastSlot`, which equals
the rounded-up quotient `⌈(lastSlot - currentSlot) / slotSize⌉`. -/
def specUnusedCount (cfg : Config) (s : PoolState) : Nat :=
  (s.lastSlot - s.currentSlot + cfg.slotSize - 1) / cfg.slotSize

/-- Available-slot count in the words of claim C5: Unused slots remaining
between the cursors plus the length of the free list. -/
def specAvailable (cfg : Config) (s : PoolState) : Nat :=
  specUnusedCount cfg s + s.freeSlots.length

/-- Embeds `MemoryPool::allocate(size_type n, const_pointer hint)` of the
teaching variant (C-11-Teach/MemoryPool.tcc, lines 148-169); the body never
reads `n` or `hint`. -/
def allocateTeach (cfg : Config) (s : PoolState) (n : Nat) (hint : Nat) :
    Nat × PoolState :=
  let _ := n
  let _ := hint
  match s.freeSlots with
  | result :: rest => (result, { s with freeSlots := rest })
  | [] =>
      if s.lastSlot ≤ s.currentSlot then
        let t := allocateNewBlock cfg s
        (t.currentSlot, { t with currentSlot := t.currentSlot + cfg.slotSize })
      else
        (s.currentSlot, { s with currentSlot := s.currentSlot + cfg.slotSize })

/-- Embeds `MemoryPool::deallocate(pointer p, size_type n)` of the teaching
variant (C-11-Teach/MemoryPool.tcc, lines 172-181); the body never reads
`n`. -/
def deallocateTeach (s : PoolState) (p : Nat) (n : Nat) : PoolState :=
  let _ := n
  if p ≠ 0 then { s with freeSlots := p :: s.freeSlots } else s

/-- Client operations for the trace-based claims: an `allocate` call, or a
`deallocate` call on a given address. -/
inductive Op where
  | alloc : Op
  | free : Nat → Op
  deriving DecidableEq

/-- One client call against the pool, threading the list of currently Live
addresses as ghost state.  A `deallocate` is only performed when its
argument is currently Live, matching the caller contract of claim C2. -/
def step (cfg : Config) (st : PoolState × List Nat) : Op → PoolState × List Nat
  | Op.alloc =>
      let r := allocate cfg st.1
      (r.2, st.2 ++ [r.1])
  | Op.free a => if a ∈ st.2 then (deallocate st.1 a, st.2.erase a) else st

/-- Run a finite sequence of client calls starting from the empty pool,
returning the final pool state and the list of Live addresses. -/
def run (cfg : Config) (ops : List Op) : PoolState × List Nat :=
  ops.foldl (step cfg) (emptyPool, [])

/-- Address `a` is one of the slot positions carved from the block based at
`b`: at or past the block's first usable slot, on the slot grid, and fully
inside the block's `BlockSize` bytes. -/
def slotIn (cfg : Config) (b a : Nat) : Prop :=
  blockStart cfg b ≤ a ∧ a + cfg.slotSize ≤ b + cfg.blockSize ∧
    cfg.slotSize ∣ (a - blockStart cfg b)

/-- Invariant tying a pool state to the ghost list of Live addresses:
the chain consists of the acquired blocks in reverse acquisition order, the
cursors sit inside the most recently acquired block, every issued address
(Live or Free) is a carved slot of some acquired block — below the cursor
if of the newest block — and no address is issued twice. -/
structure PoolInv (cfg : Config) (s : PoolState) (live : List Nat) : Prop where
  blocks_eq : s.blocks = ((List.range s.blocks.length).map cfg.alloc).reverse
  cursor_head : ∀ hd tl, s.blocks = hd :: tl →
    blockStart cfg hd ≤ s.currentSlot ∧
    cfg.slotSize ∣ (s.currentSlot - blockStart cfg hd) ∧
    s.lastSlot = hd + cfg.blockSize - cfg.slotSize + 1
  cursor_nil : s.blocks = [] → s.currentSlot = 0 ∧ s.lastSlot = 0
  issued : ∀ a ∈ live ++ s.freeSlots, ∃ i, i < s.blocks.length ∧
    slotIn cfg (cfg.alloc i) a ∧
    (i + 1 = s.blocks.length → a + cfg.slotSize ≤ s.currentSlot)
  nodup : (live ++ s.freeSlots).Nodup

/-- Concrete sample instantiation used by the witnesses: 16-byte slots with
8-byte alignment, 8-byte link pointers, 64-byte blocks, and the n-th block
acquired at base address `4096 * (n + 1)`. -/
def cfg0 : Config := ⟨64, 16, 8, 8, fun n => 4096 * (n + 1)⟩

theorem calculatePadding_lt (p align : Nat) (h : 0 < align) :
    calculatePadding p align < align := by
  unfold calculatePadding
  by_cases h0 : p % align = 0
  · simp [h0, h]
  · have := Nat.mod_lt p h
    simp only [h0, if_false]
    omega

theorem calculatePadding_aligned (p align : Nat) (h : 0 < align) :
    align ∣ (p + calculatePadding p align) := by
  unfold calculatePadding
  by_cases h0 : p % align = 0
  · simpa [h0] using Nat.dvd_of_mod_eq_zero h0
  · simp only [h0, if_false]
    have hmod := Nat.div_add_mod p align
    have hlt := Nat.mod_lt p h
    refine ⟨p / align + 1, ?_⟩
    have hh : align * (p / align + 1) = align * (p / align) + align := by ring
    omega

theorem blockStart_ge (cfg : Config) (b : Nat) :
    b + cfg.ptrSize ≤ blockStart cfg b :=
  Nat.le_add_right _ _

theorem blockStart_le_slot (cfg : Config) (hwf : Config.WF cfg) (b : Nat)
    (hb : cfg.align ∣ b) : blockStart cfg b ≤ b + cfg.slotSize := by
  have hlt := calculatePadding_lt (b + cfg.ptrSize) cfg.align hwf.align_pos
  have hal := calculatePadding_aligned (b + cfg.ptrSize) cfg.align hwf.align_pos
  have hd : cfg.align ∣ (cfg.ptrSize + calculatePadding (b + cfg.ptrSize) cfg.align) := by
    have := Nat.dvd_sub' hal hb
    have harith : b + cfg.ptrSize + calculatePadding (b + cfg.ptrSize) cfg.align - b =
        cfg.ptrSize + calculatePadding (b + cfg.ptrSize) cfg.align := by omega
    rwa [harith] at this
  obtain ⟨q, hq⟩ := hd
  obtain ⟨r, hr⟩ := hwf.align_dvd_slot
  have hple := hwf.ptr_le_slot
  have hqr : q ≤ r := by
    by_contra hgt
    push_neg at hgt
    have h1 : r + 1 ≤ q := hgt
    have h2 : cfg.align * (r + 1) ≤ cfg.align * q := Nat.mul_le_mul_left _ h1
    have h3 : cfg.align * (r + 1) = cfg.align * r + cfg.align := by ring
    omega
  have h4 : cfg.align * q ≤ cfg.align * r := Nat.mul_le_mul_left _ hqr
  unfold blockStart
  omega

theorem blockStart_fit (cfg : Config) (hwf : Config.WF cfg) (b : Nat)
    (hb : cfg.align ∣ b) : blockStart cfg b + cfg.slotSize ≤ b + cfg.blockSize := by
  have h1 := blockStart_le_slot cfg hwf b hb
  have h2 := hwf.block_ge
  omega

theorem slotIn_region (cfg : Config) (hwf : Config.WF cfg) {b a : Nat}
    (hs : slotIn cfg b a) : b ≤ a ∧ a < b + cfg.blockSize := by
  obtain ⟨h1, h2, _⟩ := hs
  have h3 := blockStart_ge cfg b
  have h4 := hwf.slot_pos
  omega

theorem alloc_region_ne {cfg : Config} (hwf : Config.WF cfg) {i j a b : Nat}
    (hij : i ≠ j) (ha : cfg.alloc i ≤ a ∧ a < cfg.alloc i + cfg.blockSize)
    (hb : cfg.alloc j ≤ b ∧ b < cfg.alloc j + cfg.blockSize) : a ≠ b := by
  rcases hwf.alloc_disjoint i j hij with h | h <;> omega

theorem chain_head {cfg : Config} {s : PoolState}
    (h : s.blocks = ((List.range s.blocks.length).map cfg.alloc).reverse)
    {hd : Nat} {tl : List Nat} (hb : s.blocks = hd :: tl) :
    hd = cfg.alloc tl.length ∧
    tl = ((List.range tl.length).map cfg.alloc).reverse := by
  rw [hb] at h
  simp only [List.length_cons] at h
  rw [List.range_succ, List.map_append, List.reverse_append] at h
  simp only [List.map_cons, List.map_nil, List.reverse_cons, List.reverse_nil,
    List.nil_append, List.singleton_append, List.cons.injEq] at h
  exact h

theorem countCapped_eq (l : List Nat) : ∀ c : Nat,
    countCapped c l = max c (min (c + l.length) 1000) := by
  induction l with
  | nil => intro c; simp [countCapped]
  | cons x rest ih =>
      intro c
      by_cases hc : c < 1000
      · simp only [countCapped, hc, if_true, ih, List.length_cons]
        omega
      · simp only [countCapped, hc, if_false, List.length_cons]
        omega

theorem poolInv_init (cfg : Config) : PoolInv cfg emptyPool [] := by
  refine ⟨?_, ?_, ?_, ?_, ?_⟩
  · simp [emptyPool]
  · intro hd tl hb; simp [emptyPool] at hb
  · intro _; exact ⟨rfl, rfl⟩
  · intro a ha; simp [emptyPool] at ha
  · simp [emptyPool]

theorem poolInv_alloc {cfg : Config} (hwf : Config.WF cfg) {s : PoolState}
    {live : List Nat} (h : PoolInv cfg s live) :
    PoolInv cfg (allocate cfg s).2 (live ++ [(allocate cfg s).1]) := by
  rcases hfs : s.freeSlots with _ | ⟨pos, rest⟩
  · -- the free list is empty
    by_cases hcl : s.lastSlot ≤ s.currentSlot
    · -- the current block is exhausted (or absent): a new block is acquired
      have hred : allocate cfg s =
          (blockStart cfg (cfg.alloc s.blocks.length),
           { currentSlot := blockStart cfg (cfg.alloc s.blocks.length) + cfg.slotSize
             lastSlot := cfg.alloc s.blocks.length + cfg.blockSize - cfg.slotSize + 1
             freeSlots := []
             blocks := cfg.alloc s.blocks.length :: s.blocks }) := by
        simp [allocate, allocateNewBlock, hfs, hcl]
      rw [hred]
      have hfit := blockStart_fit cfg hwf (cfg.alloc s.blocks.length)
        (hwf.alloc_aligned s.blocks.length)
      have hge := blockStart_ge cfg (cfg.alloc s.blocks.length)
      have hsp := hwf.slot_pos
      refine ⟨?_, ?_, ?_, ?_, ?_⟩
      · show cfg.alloc s.blocks.length :: s.blocks =
          ((List.range (cfg.alloc s.blocks.length :: s.blocks).length).map cfg.alloc).reverse
        rw [List.length_cons, List.range_succ, List.map_append, List.reverse_append]
        simp only [List.map_cons, List.map_nil, List.reverse_cons, List.reverse_nil,
          List.nil_append, List.singleton_append]
        exact congrArg (cfg.alloc s.blocks.length :: ·) h.blocks_eq
      · intro hd tl hb
        have hb' : cfg.alloc s.blocks.length :: s.blocks = hd :: tl := hb
        injection hb' with h1 h2
        subst h1
        refine ⟨?_, ?_, rfl⟩
        · show blockStart cfg (cfg.alloc s.blocks.length) ≤
            blockStart cfg (cfg.alloc s.blocks.length) + cfg.slotSize
          omega
        · show cfg.slotSize ∣ (blockStart cfg (cfg.alloc s.blocks.length) + cfg.slotSize -
            blockStart cfg (cfg.alloc s.blocks.length))
          simp
      · intro hb
        have hb' : cfg.alloc s.blocks.length :: s.blocks = ([] : List Nat) := hb
        exact (List.cons_ne_nil _ _ hb').elim
      · intro a ha
        have ha' : a ∈ live ++ [blockStart cfg (cfg.alloc s.blocks.length)] := by
          simpa using ha
        rcases List.mem_append.mp ha' with hmem | hmem
        · obtain ⟨i, hi, hsl, _⟩ := h.issued a (by rw [hfs]; simpa using hmem)
          refine ⟨i, ?_, hsl, ?_⟩
          · show i < (cfg.alloc s.blocks.length :: s.blocks).length
            rw [List.length_cons]
            omega
          · intro heq
            have heq' : i + 1 = s.blocks.length + 1 := by simpa using heq
            omega
        · have hmem' : a = blockStart cfg (cfg.alloc s.blocks.length) := by simpa using hmem
          subst hmem'
          refine ⟨s.blocks.length, ?_, ⟨Nat.le_refl _, hfit, by simp⟩, ?_⟩
          · show s.blocks.length < (cfg.alloc s.blocks.length :: s.blocks).length
            simp
          · intro _
            exact Nat.le_refl _
      · have hfresh : blockStart cfg (cfg.alloc s.blocks.length) ∉ live := by
          intro hmem
          obtain ⟨i, hi, hsl, _⟩ := h.issued _ (by rw [hfs]; simpa using hmem)
          have hreg := slotIn_region cfg hwf hsl
          have hb2 : cfg.alloc s.blocks.length ≤
              blockStart cfg (cfg.alloc s.blocks.length) ∧
              blockStart cfg (cfg.alloc s.blocks.length) <
              cfg.alloc s.blocks.length + cfg.blockSize := by
            constructor <;> omega
          exact (alloc_region_ne hwf (show i ≠ s.blocks.length by omega) hreg hb2) rfl
        have hl : live.Nodup := by
          have hn := h.nodup
          rw [hfs] at hn
          simpa using hn
        show ((live ++ [blockStart cfg (cfg.alloc s.blocks.length)]) ++ []).Nodup
        simp [List.nodup_append, hl, hfresh]
    · -- carve the next slot from the current block
      rcases hblk : s.blocks with _ | ⟨hd, tl⟩
      · exfalso
        have := h.cursor_nil hblk
        omega
      · have hch := h.cursor_head hd tl hblk
        have hhd := chain_head h.blocks_eq hblk
        have hsp := hwf.slot_pos
        have hbg := hwf.block_ge
        have hred : allocate cfg s =
            (s.currentSlot, { currentSlot := s.currentSlot + cfg.slotSize
                              lastSlot := s.lastSlot
                              freeSlots := []
                              blocks := s.blocks }) := by
          simp [allocate, hfs, hcl]
        rw [hred]
        refine ⟨h.blocks_eq, ?_, ?_, ?_, ?_⟩
        · intro hd2 tl2 hb
          have hb' : s.blocks = hd2 :: tl2 := hb
          rw [hblk] at hb'
          injection hb' with h1 h2
          subst h1
          subst h2
          refine ⟨?_, ?_, ?_⟩
          · show blockStart cfg hd ≤ s.currentSlot + cfg.slotSize
            have := hch.1
            omega
          · show cfg.slotSize ∣ (s.currentSlot + cfg.slotSize - blockStart cfg hd)
            have h1 := hch.1
            have harith : s.currentSlot + cfg.slotSize - blockStart cfg hd =
                (s.currentSlot - blockStart cfg hd) + cfg.slotSize := by omega
            rw [harith]
            exact Nat.dvd_add hch.2.1 (Nat.dvd_refl _)
          · exact hch.2.2
        · intro hb
          have hb' : s.blocks = ([] : List Nat) := hb
          rw [hblk] at hb'
          exact (List.cons_ne_nil _ _ hb').elim
        · intro a ha
          have ha' : a ∈ live ++ [s.currentSlot] := by simpa using ha
          rcases List.mem_append.mp ha' with hmem | hmem
          · obtain ⟨i, hi, hsl, hhead⟩ := h.issued a (by rw [hfs]; simpa using hmem)
            refine ⟨i, hi, hsl, ?_⟩
            intro heq
            have hle := hhead heq
            show a + cfg.slotSize ≤ s.currentSlot + cfg.slotSize
            omega
          · have hmem' : a = s.currentSlot := by simpa using hmem
            subst hmem'
            refine ⟨tl.length, ?_, ?_, ?_⟩
            · show tl.length < s.blocks.length
              rw [hblk]
              simp
            · rw [← hhd.1]
              refine ⟨hch.1, ?_, hch.2.1⟩
              have hlast := hch.2.2
              show s.currentSlot + cfg.slotSize ≤ hd + cfg.blockSize
              omega
            · intro _
              exact Nat.le_refl _
        · have hfresh : s.currentSlot ∉ live := by
            intro hmem
            obtain ⟨i, hi, hsl, hhead⟩ := h.issued s.currentSlot (by rw [hfs]; simpa using hmem)
            by_cases hie : i + 1 = s.blocks.length
            · have := hhead hie
              omega
            · have hreg := slotIn_region cfg hwf hsl
              have h1 := hch.1
              have h2 := blockStart_ge cfg hd
              have h3 := hch.2.2
              have hi_tl : i ≠ tl.length := by
                rw [hblk] at hie hi
                simp only [List.length_cons] at hie hi
                omega
              have hcur_reg : cfg.alloc tl.length ≤ s.currentSlot ∧
                  s.currentSlot < cfg.alloc tl.length + cfg.blockSize := by
                rw [← hhd.1]
                omega
              exact (alloc_region_ne hwf hi_tl hreg hcur_reg) rfl
          have hl : live.Nodup := by
            have hn := h.nodup
            rw [hfs] at hn
            simpa using hn
          show ((live ++ [s.currentSlot]) ++ []).Nodup
          simp [List.nodup_append, hl, hfresh]
  · -- reuse the head of the free list
    have hred : allocate cfg s = (pos, { s with freeSlots := rest }) := by
      simp [allocate, hfs]
    rw [hred]
    refine ⟨h.blocks_eq, h.cursor_head, h.cursor_nil, ?_, ?_⟩
    · intro a ha
      refine h.issued a ?_
      rw [hfs]
      simpa [List.append_assoc] using ha
    · have hn := h.nodup
      rw [hfs] at hn
      simpa [List.append_assoc] using hn

theorem poolInv_dealloc {cfg : Config} (hwf : Config.WF cfg) {s : PoolState}
    {live : List Nat} {a : Nat} (h : PoolInv cfg s live) (ha : a ∈ live) :
    PoolInv cfg (deallocate s a) (live.erase a) := by
  obtain ⟨i, hi, hsl, _⟩ := h.issued a (List.mem_append_left _ ha)
  have hreg := slotIn_region cfg hwf hsl
  have hpos := hwf.alloc_pos i
  have hne : a ≠ 0 := by omega
  have hred : deallocate s a = { s with freeSlots := a :: s.freeSlots } := by
    simp [deallocate, hne]
  rw [hred]
  refine ⟨h.blocks_eq, h.cursor_head, h.cursor_nil, ?_, ?_⟩
  · intro x hx
    apply h.issued
    simp only [List.mem_append, List.mem_cons] at hx
    rcases hx with hx | hx | hx
    · exact List.mem_append_left _ (List.mem_of_mem_erase hx)
    · subst hx; exact List.mem_append_left _ ha
    · exact List.mem_append_right _ hx
  · have p1 : live.Perm (a :: live.erase a) := List.perm_cons_erase ha
    have p2 : (live ++ s.freeSlots).Perm ((a :: live.erase a) ++ s.freeSlots) :=
      p1.append_right _
    have p3 : (live.erase a ++ a :: s.freeSlots).Perm
        (a :: (live.erase a ++ s.freeSlots)) := List.perm_middle
    have h4 : ((a :: live.erase a) ++ s.freeSlots) =
        (a :: (live.erase a ++ s.freeSlots)) := rfl
    refine (p3.nodup_iff).mpr ?_
    rw [← h4]
    exact (p2.nodup_iff).mp h.nodup

theorem poolInv_step {cfg : Config} (hwf : Config.WF cfg)
    {st : PoolState × List Nat} (h : PoolInv cfg st.1 st.2) (op : Op) :
    PoolInv cfg (step cfg st op).1 (step cfg st op).2 := by
  cases op with
  | alloc => exact poolInv_alloc hwf h
  | free a =>
      by_cases ha : a ∈ st.2
      · simpa [step, ha] using poolInv_dealloc hwf h ha
      · simpa [step, ha] using h

theorem poolInv_foldl {cfg : Config} (hwf : Config.WF cfg) :
    ∀ (ops : List Op) (st : PoolState × List Nat), PoolInv cfg st.1 st.2 →
    PoolInv cfg (ops.foldl (step cfg) st).1 (ops.foldl (step cfg) st).2 := by
  intro ops
  induction ops with
  | nil => intro st h; simpa using h
  | cons op rest ih =>
      intro st h
      simpa [List.foldl_cons] using ih _ (poolInv_step hwf h op)

theorem poolInv_run {cfg : Config} (hwf : Config.WF cfg) (ops : List Op) :
    PoolInv cfg (run cfg ops).1 (run cfg ops).2 :=
  poolInv_foldl hwf ops _ (poolInv_init cfg)

theorem cfg0_wf : Config.WF cfg0 := by
  refine ⟨?_, ?_, ?_, ?_, ?_, ?_, ?_, ?_, ?_⟩
  · decide
  · decide
  · decide
  · decide
  · decide
  · decide
  · intro n
    show 0 < 4096 * (n + 1)
    positivity
  · intro n
    refine ⟨512 * (n + 1), ?_⟩
    show 4096 * (n + 1) = 8 * (512 * (n + 1))
    ring
  · intro m n hmn
    rcases Nat.lt_or_ge m n with hlt | hge
    · left
      have h1 : m + 1 ≤ n := hlt
      have h2 : 4096 * (m + 1) ≤ 4096 * n := Nat.mul_le_mul_left _ h1
      have h3 : 4096 * (n + 1) = 4096 * n + 4096 := by ring
      show 4096 * (m + 1) + 64 ≤ 4096 * (n + 1)
      omega
    · right
      have hlt : n < m := by omega
      have h1 : n + 1 ≤ m := hlt
      have h2 : 4096 * (n + 1) ≤ 4096 * m := Nat.mul_le_mul_left _ h1
      have h3 : 4096 * (m + 1) = 4096 * m + 4096 := by ring
      show 4096 * (n + 1) + 64 ≤ 4096 * (m + 1)
      omega

theorem allocate_keeps_nil_free {cfg : Config} {s : PoolState}
    (hf : s.freeSlots = []) : (allocate cfg s).2.freeSlots = [] := by
  obtain ⟨cur, last, free, blks⟩ := s
  simp only at hf
  subst hf
  by_cases hcl : last ≤ cur <;> simp [allocate, allocateNewBlock, hcl]

theorem allocate_result_pos {cfg : Config} {s : PoolState} {live : List Nat}
    (hwf : Config.WF cfg) (h : PoolInv cfg s live) (hf : s.freeSlots = []) :
    1 ≤ (allocate cfg s).1 := by
  by_cases hcl : s.lastSlot ≤ s.currentSlot
  · have hred : (allocate cfg s).1 = blockStart cfg (cfg.alloc s.blocks.length) := by
      simp [allocate, allocateNewBlock, hf, hcl]
    rw [hred]
    have h1 := blockStart_ge cfg (cfg.alloc s.blocks.length)
    have h2 := hwf.alloc_pos s.blocks.length
    omega
  · rcases hblk : s.blocks with _ | ⟨hd, tl⟩
    · exfalso
      have := h.cursor_nil hblk
      omega
    · have hch := h.cursor_head hd tl hblk
      have hhd := chain_head h.blocks_eq hblk
      have hred : (allocate cfg s).1 = s.currentSlot := by
        simp [allocate, hf, hcl]
      rw [hred]
      have h1 := blockStart_ge cfg hd
      have h2 := hwf.alloc_pos tl.length
      have h3 := hch.1
      rw [← hhd.1] at h2
      omega

theorem blockStart_first_aligned (cfg : Config) (hwf : Config.WF cfg) (b : Nat) :
    cfg.align ∣ blockStart cfg b ∧ b + cfg.ptrSize ≤ blockStart cfg b ∧
    ∀ q, cfg.align ∣ q → b + cfg.ptrSize ≤ q → blockStart cfg b ≤ q := by
  have hal := calculatePadding_aligned (b + cfg.ptrSize) cfg.align hwf.align_pos
  have hlt := calculatePadding_lt (b + cfg.ptrSize) cfg.align hwf.align_pos
  refine ⟨hal, blockStart_ge cfg b, ?_⟩
  intro q hq hge
  by_contra hqlt
  push_neg at hqlt
  obtain ⟨x, hx⟩ := hq
  obtain ⟨y, hy⟩ := hal
  have hbs : blockStart cfg b =
      b + cfg.ptrSize + calculatePadding (b + cfg.ptrSize) cfg.align := rfl
  have hxy : x < y := by
    have hm : cfg.align * x < cfg.align * y := by omega
    exact Nat.lt_of_mul_lt_mul_left hm
  have h5 : cfg.align * (x + 1) ≤ cfg.align * y := Nat.mul_le_mul_left _ hxy
  have h6 : cfg.align * (x + 1) = cfg.align * x + cfg.align := by ring
  omega

theorem lastSlot_bound_iff (cfg : Config) (hwf : Config.WF cfg) (b a : Nat) :
    a < b + cfg.blockSize - cfg.slotSize + 1 ↔
    a + cfg.slotSize ≤ b + cfg.blockSize := by
  have h1 := hwf.block_ge
  have h2 := hwf.slot_pos
  omega

/-- C1: `allocate()` follows the fixed priority stated by the
specification: if the free list is non-empty it pops the head and returns
it; otherwise, if the current-slot cursor has reached the last-slot
cursor, it first acquires a new block; in either cursor case it returns
the current-slot cursor's address and advances that cursor by one slot
width.  Proved as a refinement: the embedded `allocate` coincides with the
spec-worded `allocateSpec` on every pool state. -/
theorem claim1_allocate_priority (cfg : Config) (s : PoolState) :
    allocate cfg s = allocateSpec cfg s := by
  rcases hfs : s.freeSlots with _ | ⟨pos, rest⟩ <;>
    simp [allocate, allocateSpec, hfs, ge_iff_le]

/-- C2: for every finite sequence of allocate/deallocate calls starting
from the empty pool, in which each deallocate receives a currently Live
address, the simultaneously Live addresses are pairwise distinct — also
when the allocations span more than one block. -/
theorem claim2_live_addresses_distinct (cfg : Config) (hwf : Config.WF cfg)
    (ops : List Op) : ((run cfg ops).2).Nodup :=
  ((poolInv_run hwf ops).nodup).of_append_left

/-- C2 witness: the sample configuration is well formed, and a concrete
six-call run that spans two blocks and revisits a freed slot produces
pairwise distinct Live addresses. -/
theorem claim2_witness : Config.WF cfg0 ∧
    ((run cfg0 [Op.alloc, Op.alloc, Op.alloc, Op.alloc, Op.free 4120,
      Op.alloc]).2).Nodup :=
  ⟨cfg0_wf, claim2_live_addresses_distinct cfg0 cfg0_wf _⟩

/-- C3: LIFO reuse.  From a fresh empty pool, after allocating a, b, c in
that order and deallocating b, the very next `allocate()` returns exactly
the address that was b. -/
theorem claim3_lifo_reuse (cfg : Config) (hwf : Config.WF cfg) :
    (allocate cfg (deallocate
        (allocate cfg (allocate cfg (allocate cfg emptyPool).2).2).2
        (allocate cfg (allocate cfg emptyPool).2).1)).1 =
    (allocate cfg (allocate cfg emptyPool).2).1 := by
  have hInv1 := poolInv_alloc hwf (poolInv_init cfg)
  have hf1 : (allocate cfg emptyPool).2.freeSlots = [] :=
    allocate_keeps_nil_free rfl
  have hpos := allocate_result_pos hwf hInv1 hf1
  have hf2 : (allocate cfg (allocate cfg emptyPool).2).2.freeSlots = [] :=
    allocate_keeps_nil_free hf1
  have hf3 : (allocate cfg (allocate cfg (allocate cfg
      emptyPool).2).2).2.freeSlots = [] :=
    allocate_keeps_nil_free hf2
  have hb0 : (allocate cfg (allocate cfg emptyPool).2).1 ≠ 0 := by omega
  have hdl : deallocate (allocate cfg (allocate cfg (allocate cfg
      emptyPool).2).2).2 (allocate cfg (allocate cfg emptyPool).2).1 =
      { (allocate cfg (allocate cfg (allocate cfg emptyPool).2).2).2 with
        freeSlots := [(allocate cfg (allocate cfg emptyPool).2).1] } := by
    simp [deallocate, hb0, hf3]
  rw [hdl]
  simp [allocate]

/-- C3 witness: the LIFO-reuse scenario at the concrete sample
configuration. -/
theorem claim3_witness : Config.WF cfg0 ∧
    (allocate cfg0 (deallocate
        (allocate cfg0 (allocate cfg0 (allocate cfg0 emptyPool).2).2).2
        (allocate cfg0 (allocate cfg0 emptyPool).2).1)).1 =
    (allocate cfg0 (allocate cfg0 emptyPool).2).1 :=
  ⟨cfg0_wf, claim3_lifo_reuse cfg0 cfg0_wf⟩

/-- C4: move construction and move assignment transfer the block chain,
the free list and both cursors to the destination; move assignment first
releases exactly the blocks the destination already owned; in both cases
the source is reset to the empty state (all four pointers null), so that
afterwards it reports zero available and zero used slots and its next
allocation acquires a fresh block. -/
theorem claim4_move_semantics (cfg : Config) (src dest : PoolState) :
    (moveCtor src).1 = src ∧
    (moveCtor src).1.currentBlock = src.currentBlock ∧
    (moveCtor src).2 = emptyPool ∧
    (moveAssign dest src).1 = dest.blocks ∧
    (moveAssign dest src).2.1 = src ∧
    (moveAssign dest src).2.2 = emptyPool ∧
    available cfg (moveCtor src).2 = 0 ∧
    used cfg (moveCtor src).2 = 0 ∧
    (allocate cfg (moveCtor src).2).2.blocks = [cfg.alloc 0] :=
  ⟨rfl, rfl, rfl, rfl, rfl, rfl, rfl, rfl, rfl⟩

/-- C5 counterexample: after a single allocation from the empty pool of
the sample configuration — a reachable state with an empty free list and
two Unused slots left between the cursors — `available()` returns 1, not
2: the pointer-difference count `(lastSlot - currentSlot) / slotSize`
undercuts the true Unused count. -/
theorem claim5_counterexample :
    available cfg0 ((run cfg0 [Op.alloc]).1) = 1 ∧
    specUnusedCount cfg0 ((run cfg0 [Op.alloc]).1) +
      ((run cfg0 [Op.alloc]).1).freeSlots.length = 2 ∧
    available cfg0 ((run cfg0 [Op.alloc]).1) ≠
      specUnusedCount cfg0 ((run cfg0 [Op.alloc]).1) +
      ((run cfg0 [Op.alloc]).1).freeSlots.length := by
  refine ⟨by decide, by decide, by decide⟩

/-- C5 amended: what the diagnostics actually compute.  `available()`
returns the truncated pointer difference `(lastSlot - currentSlot) /
slotSize` (which can undercount the Unused slots remaining between the
cursors) plus the free-list length, the total saturated at the traversal
cap 1000; `used()` returns 0 when there are no blocks, and otherwise
`min(blockCount, 1000) * ((BlockSize - sizeof(slot_pointer)) / slotSize)`
minus that truncated tail count plus the capped free-list count. -/
theorem claim5_diagnostics_formula (cfg : Config) (s : PoolState) :
    available cfg s =
      max (if s.currentSlot < s.lastSlot
            then (s.lastSlot - s.currentSlot) / cfg.slotSize else 0)
        (min ((if s.currentSlot < s.lastSlot
            then (s.lastSlot - s.currentSlot) / cfg.slotSize else 0) +
          s.freeSlots.length) 1000) ∧
    used cfg s = (if s.blocks = [] then 0
      else (min s.blocks.length 1000) *
          ((cfg.blockSize - cfg.ptrSize) / cfg.slotSize)
        - ((if s.currentSlot < s.lastSlot
            then (s.lastSlot - s.currentSlot) / cfg.slotSize else 0)
          + min s.freeSlots.length 1000)) := by
  constructor
  · unfold available
    rw [countCapped_eq]
  · rcases hb : s.blocks with _ | ⟨b, bl⟩
    · simp [used, hb, countCapped]
    · have h2 : countCapped 0 s.freeSlots = min s.freeSlots.length 1000 := by
        rw [countCapped_eq]
        omega
      have h1 : countCapped 0 (b :: bl) = min (bl.length + 1) 1000 := by
        rw [countCapped_eq]
        simp
      have hne : ¬ min (bl.length + 1) 1000 = 0 := by omega
      simp [used, hb, h1, h2, hne]

/-- C6: copy construction from another pool — of the same element type or
of a different element type, as implemented by the teaching variant; the
base variant deletes both copy constructors outright — always yields a
fresh empty pool (no blocks, empty free list, null cursors) regardless of
the source's contents, and never copies blocks, free list, or cursors. -/
theorem claim6_copy_yields_empty (s t : PoolState) :
    copyCtorSame s = emptyPool ∧ copyCtorCross s = emptyPool ∧
    copyCtorSame s = copyCtorSame t ∧ copyCtorCross s = copyCtorCross t ∧
    (copyCtorSame s).blocks = [] ∧ (copyCtorSame s).freeSlots = [] ∧
    (copyCtorSame s).currentSlot = 0 ∧ (copyCtorSame s).lastSlot = 0 :=
  ⟨rfl, rfl, rfl, rfl, rfl, rfl, rfl, rfl⟩

/-- C7: after every block acquisition the current-slot cursor is the
first `alignof(Slot)`-aligned address past the block's leading link word,
an address is below the last-slot cursor exactly when its slot fits fully
inside the block's `BlockSize` bytes, and consequently every address
handed out by `allocate` over any run from the empty pool lies entirely
within one of the acquired blocks. -/
theorem claim7_block_layout (cfg : Config) (hwf : Config.WF cfg) :
    (∀ s : PoolState,
      cfg.align ∣ (allocateNewBlock cfg s).currentSlot ∧
      cfg.alloc s.blocks.length + cfg.ptrSize ≤
        (allocateNewBlock cfg s).currentSlot ∧
      (∀ q, cfg.align ∣ q → cfg.alloc s.blocks.length + cfg.ptrSize ≤ q →
        (allocateNewBlock cfg s).currentSlot ≤ q) ∧
      (∀ a, a < (allocateNewBlock cfg s).lastSlot ↔
        a + cfg.slotSize ≤ cfg.alloc s.blocks.length + cfg.blockSize)) ∧
    (∀ ops : List Op, ∀ a ∈ (run cfg ops).2,
      ∃ i, i < (run cfg ops).1.blocks.length ∧
        cfg.alloc i ≤ a ∧ a + cfg.slotSize ≤ cfg.alloc i + cfg.blockSize) := by
  constructor
  · intro s
    have hfa := blockStart_first_aligned cfg hwf (cfg.alloc s.blocks.length)
    refine ⟨hfa.1, hfa.2.1, hfa.2.2, ?_⟩
    intro a
    exact lastSlot_bound_iff cfg hwf (cfg.alloc s.blocks.length) a
  · intro ops a ha
    obtain ⟨i, hi, hsl, _⟩ :=
      (poolInv_run hwf ops).issued a (List.mem_append_left _ ha)
    have hreg := slotIn_region cfg hwf hsl
    exact ⟨i, hi, hreg.1, hsl.2.1⟩

/-- C7 witness: alignment of the first cursor after acquiring a block
from the empty sample pool, and containment of the concrete issued
address 4104 in an acquired block. -/
theorem claim7_witness : Config.WF cfg0 ∧
    (cfg0.align ∣ (allocateNewBlock cfg0 emptyPool).currentSlot) ∧
    (∃ i, i < (run cfg0 [Op.alloc]).1.blocks.length ∧
      cfg0.alloc i ≤ 4104 ∧ 4104 + cfg0.slotSize ≤ cfg0.alloc i + cfg0.blockSize) :=
  ⟨cfg0_wf, ((claim7_block_layout cfg0 cfg0_wf).1 emptyPool).1,
    (claim7_block_layout cfg0 cfg0_wf).2 [Op.alloc] 4104 (by decide)⟩

/-- C8: a configured block size smaller than two slot widths is rejected
by the compile-time `static_assert` before any allocation can happen —
modelled by the acceptance predicate `Config.WF`, which contains exactly
that bound — and for every accepted configuration each acquired block
holds at least one usable slot after the link word and padding: the fresh
current-slot cursor is strictly below the fresh last-slot cursor. -/
theorem claim8_blocksize_guard (cfg : Config) (hwf : Config.WF cfg) :
    2 * cfg.slotSize ≤ cfg.blockSize ∧
    ∀ s : PoolState,
      (allocateNewBlock cfg s).currentSlot < (allocateNewBlock cfg s).lastSlot := by
  refine ⟨hwf.block_ge, ?_⟩
  intro s
  have h1 := blockStart_fit cfg hwf (cfg.alloc s.blocks.length)
    (hwf.alloc_aligned s.blocks.length)
  have h2 := hwf.slot_pos
  have h3 := hwf.block_ge
  show blockStart cfg (cfg.alloc s.blocks.length) <
    cfg.alloc s.blocks.length + cfg.blockSize - cfg.slotSize + 1
  omega

/-- C8 witness: the sample configuration is accepted and its first block
carves at least one usable slot. -/
theorem claim8_witness : Config.WF cfg0 ∧ 2 * cfg0.slotSize ≤ cfg0.blockSize ∧
    (allocateNewBlock cfg0 emptyPool).currentSlot <
      (allocateNewBlock cfg0 emptyPool).lastSlot :=
  ⟨cfg0_wf, (claim8_blocksize_guard cfg0 cfg0_wf).1,
    (claim8_blocksize_guard cfg0 cfg0_wf).2 emptyPool⟩

/-- C9: `deallocate` and `deleteElement` with a null pointer are defined
no-ops that leave the whole pool state unchanged and perform no
destruction; for every non-null `p`, `deleteElement` runs the element's
destructor exactly once and only then calls `deallocate`, in that order. -/
theorem claim9_deleteElement_contract (t : Trace) (p : Nat) :
    deallocate t.pool 0 = t.pool ∧
    deleteElementOp t 0 = t ∧
    (p ≠ 0 → deleteElementOp t p =
      { pool := deallocate t.pool p,
        log := t.log ++ [PoolAction.destroyAct p, PoolAction.deallocAct p] } ∧
      (deleteElementOp t p).log.count (PoolAction.destroyAct p) =
        t.log.count (PoolAction.destroyAct p) + 1) := by
  refine ⟨?_, ?_, ?_⟩
  · simp [deallocate]
  · simp [deleteElementOp]
  · intro hp
    constructor
    · simp [deleteElementOp, deallocateOp, destroyOp, hp]
    · simp [deleteElementOp, deallocateOp, destroyOp, hp, List.count_append]

/-- C9 witness: the contract at the concrete pointer 5 and the empty
trace. -/
theorem claim9_witness : (5 : Nat) ≠ 0 ∧
    (deleteElementOp ⟨emptyPool, []⟩ 5 =
      { pool := deallocate emptyPool 5,
        log := [PoolAction.destroyAct 5, PoolAction.deallocAct 5] } ∧
      (deleteElementOp ⟨emptyPool, []⟩ 5).log.count (PoolAction.destroyAct 5) =
        ([] : List PoolAction).count (PoolAction.destroyAct 5) + 1) :=
  ⟨by decide, (claim9_deleteElement_contract ⟨emptyPool, []⟩ 5).2.2 (by decide)⟩

/-- C10: in the teaching variant, `allocate(n, hint)` performs exactly the
same state transition and returns the same single-slot address as
`allocate(1, nullptr)` — and as the base variant's `allocate()` — and
`deallocate(p, n)` behaves exactly as `deallocate(p, 1)` and as the base
`deallocate(p)`: the size arguments are silently ignored. -/
theorem claim10_size_args_ignored (cfg : Config) (s : PoolState)
    (n hint p m : Nat) :
    allocateTeach cfg s n hint = allocateTeach cfg s 1 0 ∧
    allocateTeach cfg s n hint = allocate cfg s ∧
    deallocateTeach s p m = deallocateTeach s p 1 ∧
    deallocateTeach s p m = deallocate s p := by
  refine ⟨rfl, ?_, rfl, rfl⟩
  rcases hfs : s.freeSlots with _ | ⟨pos, rest⟩
  · by_cases hcl : s.lastSlot ≤ s.currentSlot <;>
      simp [allocateTeach, allocate, hfs, hcl]
  · simp [allocateTeach, allocate, hfs]
